import Mathlib

/-!
Verification development for the Kalico firmware build system (`build.py`).

The Python source works on untyped JSON dictionaries.  The embedding below
gives each document shape an explicit structure, models dictionaries with
ordered association lists (Python dicts preserve insertion order), models
the filesystem and the external compiler as explicit parameters, and models
`sys.exit(1)` / uncaught exceptions as `none` results.  Timestamps
(`datetime.now`) are passed in as an explicit `now : String` argument.
-/

namespace Flasher

/-- One permutation-value documentation record under `configurations`
(the source only ever reads its `id` key). -/
structure ConfigPerm where
  id : String
deriving DecidableEq

/-- One entry of the `configurations` list of the catalog. -/
structure ConfigEntry where
  permutations : List ConfigPerm := []
deriving DecidableEq

/-- The `configuration` object of a target: the four template keys and the
`permutations` axes mapping (an ordered mapping axis name ↦ value list). -/
structure Configuration where
  kconfigFilenameTemplate : Option String := none
  kconfigTemplate : Option String := none
  firmwareFilenameTemplate : Option String := none
  fileTemplate : Option String := none
  permutations : List (String × List String) := []
deriving DecidableEq

/-- One target of the catalog.  `configuration` is optional because the
source reads it with `target.get("configuration", {})`. -/
structure Target where
  targetId : String
  vendorId : String
  configuration : Option Configuration := none
deriving DecidableEq

/-- One entry of the `builds` list of the catalog. -/
structure BuildEntry where
  version : String
  buildDate : String
  githubCommitUrl : String
deriving DecidableEq

/-- The catalog (`index.json`). -/
structure Catalog where
  targets : List Target := []
  configurations : List ConfigEntry := []
  builds : List BuildEntry := []
deriving DecidableEq

/-- Embeds `itertools.product(*values)`: the Cartesian product of the value lists,
rightmost list varying fastest, as produced by `for combo in product(*values)`. -/
def productLists : List (List String) → List (List String)
  | [] => [[]]
  | vs :: rest => vs.flatMap fun v => (productLists rest).map fun combo => v :: combo

/-- Embeds `KalicoBuilder.generate_permutations`: the axes mapping is read from the
target (`{}` defaults at each `get`), an empty mapping yields `[{}]`, and
otherwise `dict(zip(keys, combo))` is formed for every `combo` in
`product(*values)` where `keys`/`values` are the mapping keys and values
in declaration order. -/
def generate_permutations (target : Target) : List (List (String × String)) :=
  let perms := (target.configuration.getD {}).permutations
  if perms.isEmpty then
    [[]]
  else
    (productLists (perms.map Prod.snd)).map fun combo => (perms.map Prod.fst).zip combo

/-- Specification-side description of the expansion (for the refinement in
C1): the Cartesian product enumerated lexicographically over the axes in
declared order, the last-declared axis varying fastest, each mapping holding
exactly one entry per axis key. -/
def cartesianLex : List (String × List String) → List (List (String × String))
  | [] => [[]]
  | (k, vs) :: rest => vs.flatMap fun v => (cartesianLex rest).map fun m => (k, v) :: m

theorem productLists_map_zip (axes : List (String × List String)) :
    (productLists (axes.map Prod.snd)).map (fun combo => (axes.map Prod.fst).zip combo)
      = cartesianLex axes := by
  induction axes with
  | nil => simp [productLists, cartesianLex]
  | cons hd rest ih =>
    obtain ⟨k, vs⟩ := hd
    simp only [List.map_cons, productLists, cartesianLex, List.map_flatMap, List.map_map]
    rw [← ih]
    congr 1
    funext v
    simp [List.map_map, Function.comp, List.zip]

theorem generate_permutations_eq_cartesianLex (t : Target) :
    generate_permutations t = cartesianLex (t.configuration.getD {}).permutations := by
  unfold generate_permutations
  rcases h : (t.configuration.getD {}).permutations with _ | ⟨hd, rest⟩
  · simp [cartesianLex]
  · simpa using productLists_map_zip (hd :: rest)

theorem mem_cartesianLex_keys {axes : List (String × List String)}
    {m : List (String × String)} (hm : m ∈ cartesianLex axes) :
    m.map Prod.fst = axes.map Prod.fst := by
  induction axes generalizing m with
  | nil => simp [cartesianLex] at hm; simp [hm]
  | cons hd rest ih =>
    obtain ⟨k, vs⟩ := hd
    simp only [cartesianLex, List.mem_flatMap, List.mem_map] at hm
    obtain ⟨v, _, m', hm', rfl⟩ := hm
    simp [ih hm']

/-- A concrete target with axes `{A:[1,2], B:[x,y]}`. -/
def exampleTargetAB : Target :=
  { targetId := "t", vendorId := "v",
    configuration := some { permutations := [("A", ["1", "2"]), ("B", ["x", "y"])] } }

/-- C1: permutation expansion on an empty axes mapping returns exactly the
single-element sequence holding the empty mapping; on non-empty axes it is
the full Cartesian product, one mapping per combination with exactly one
entry per axis key, in lexicographic order over the declared axis order with
the last-declared axis varying fastest; in particular axes
`{A:[1,2], B:[x,y]}` yield `{A:1,B:x},{A:1,B:y},{A:2,B:x},{A:2,B:y}`. -/
theorem C1_permutation_expansion :
    (∀ t : Target, (t.configuration.getD {}).permutations = [] →
        generate_permutations t = [[]])
    ∧ (∀ t : Target,
        generate_permutations t = cartesianLex (t.configuration.getD {}).permutations)
    ∧ (∀ (t : Target) (m : List (String × String)), m ∈ generate_permutations t →
        m.map Prod.fst = ((t.configuration.getD {}).permutations).map Prod.fst)
    ∧ generate_permutations exampleTargetAB =
        [[("A", "1"), ("B", "x")], [("A", "1"), ("B", "y")],
         [("A", "2"), ("B", "x")], [("A", "2"), ("B", "y")]] := by
  refine ⟨?_, generate_permutations_eq_cartesianLex, ?_, ?_⟩
  · intro t ht
    rw [generate_permutations_eq_cartesianLex, ht]
    rfl
  · intro t m hm
    rw [generate_permutations_eq_cartesianLex] at hm
    exact mem_cartesianLex_keys hm
  · rfl

/-- The opening-brace character of a template placeholder. -/
def lbrace : Char := Char.ofNat 123

/-- The closing-brace character of a template placeholder. -/
def rbrace : Char := Char.ofNat 125

/-- Scanner state of the template formatter. -/
inductive FmtSt
  | outside
  | afterLbrace
  | inField (acc : List Char)
  | afterRbrace
deriving DecidableEq

/-- Python `str.format(**params)` restricted to the simple named placeholders
the templates of this program use: literal text, doubled-brace escapes, and
`{name}` fields looked up in `params`; an unknown field name (`KeyError`),
an empty/auto-numbered field (`IndexError`) or a malformed template
(`ValueError`) is a raised exception, modelled as `none`. -/
def pyFormatGo (params : List (String × String)) : FmtSt → List Char → Option (List Char)
  | .outside, [] => some []
  | .outside, c :: rest =>
    if c = lbrace then pyFormatGo params .afterLbrace rest
    else if c = rbrace then pyFormatGo params .afterRbrace rest
    else (pyFormatGo params .outside rest).map fun out => c :: out
  | .afterLbrace, [] => none
  | .afterLbrace, c :: rest =>
    if c = lbrace then (pyFormatGo params .outside rest).map fun out => lbrace :: out
    else if c = rbrace then none
    else pyFormatGo params (.inField [c]) rest
  | .inField _, [] => none
  | .inField acc, c :: rest =>
    if c = rbrace then
      match params.lookup acc.reverse.asString with
      | none => none
      | some v => (pyFormatGo params .outside rest).map fun out => v.toList ++ out
    else if c = lbrace then none
    else pyFormatGo params (.inField (c :: acc)) rest
  | .afterRbrace, [] => none
  | .afterRbrace, c :: rest =>
    if c = rbrace then (pyFormatGo params .outside rest).map fun out => rbrace :: out
    else none

/-- The field names a template references, scanned exactly as `pyFormatGo`
scans them (nothing is collected past a malformed point, where formatting
raises anyway). -/
def fieldNamesGo : FmtSt → List Char → List String
  | _, [] => []
  | .outside, c :: rest =>
    if c = lbrace then fieldNamesGo .afterLbrace rest
    else if c = rbrace then fieldNamesGo .afterRbrace rest
    else fieldNamesGo .outside rest
  | .afterLbrace, c :: rest =>
    if c = lbrace then fieldNamesGo .outside rest
    else if c = rbrace then []
    else fieldNamesGo (.inField [c]) rest
  | .inField acc, c :: rest =>
    if c = rbrace then acc.reverse.asString :: fieldNamesGo .outside rest
    else if c = lbrace then []
    else fieldNamesGo (.inField (c :: acc)) rest
  | .afterRbrace, c :: rest =>
    if c = rbrace then fieldNamesGo .outside rest
    else []

/-- The `{name}` field names referenced by a template string. -/
def fieldNames (template : String) : List String :=
  fieldNamesGo .outside template.toList

/-- The merged parameter mapping of `format_filename`:
`{"targetId": ..., "vendorId": ..., **permutation}` — permutation entries
override the two identity entries, and a later duplicate key inside the
permutation overrides an earlier one, as in a Python dict literal.  Lookup
is first-match, hence the reversal. -/
def mergedParams (target : Target) (permutation : List (String × String)) :
    List (String × String) :=
  permutation.reverse ++ [("targetId", target.targetId), ("vendorId", target.vendorId)]

/-- Embeds `KalicoBuilder.format_filename`: render the template against the merged
parameters; `none` models the uncaught exception on a missing/invalid field. -/
def format_filename (template : String) (target : Target)
    (permutation : List (String × String)) : Option String :=
  (pyFormatGo (mergedParams target permutation) .outside template.toList).map List.asString

/-- Embeds `KalicoBuilder._get_template`: `config.get(primary) or config.get(fallback)
or default` — Python `or` skips a missing key (`None`) and an empty string.
The two candidate key values are passed in directly. -/
def _get_template (primary fallback : Option String) (dflt : String) : String :=
  let second := match fallback with
    | some f => if f.isEmpty then dflt else f
    | none => dflt
  match primary with
  | some p => if p.isEmpty then second else p
  | none => second

/-- Embeds `KalicoBuilder.get_kconfig_filename`. -/
def get_kconfig_filename (target : Target) (permutation : List (String × String)) :
    Option String :=
  let config := target.configuration.getD {}
  format_filename
    (_get_template config.kconfigFilenameTemplate config.kconfigTemplate
      "{targetId}_{vendorId}.kconfig")
    target permutation

/-- Embeds `KalicoBuilder.get_firmware_filename`. -/
def get_firmware_filename (target : Target) (permutation : List (String × String)) :
    Option String :=
  let config := target.configuration.getD {}
  format_filename
    (_get_template config.firmwareFilenameTemplate config.fileTemplate
      "{targetId}_{vendorId}.bin")
    target permutation

/-- A target with `targetId="mcu1"`, `vendorId="acme"` and no template keys. -/
def mcu1Target : Target := { targetId := "mcu1", vendorId := "acme" }

/-- C2: template selection is a three-tier first-present-(non-empty)-wins
fallback — primary key, then legacy key, then the hard-coded default; a
non-empty primary wins even when the legacy key is set, and a target with no
template keys and `targetId="mcu1"`, `vendorId="acme"` resolves to
`"mcu1_acme.kconfig"` and `"mcu1_acme.bin"`. -/
theorem C2_template_fallback :
    (∀ (f : Option String) (d p : String), p ≠ "" → _get_template (some p) f d = p)
    ∧ (∀ (d q : String), q ≠ "" →
        _get_template none (some q) d = q ∧ _get_template (some "") (some q) d = q)
    ∧ (∀ d : String,
        _get_template none none d = d ∧ _get_template (some "") none d = d
        ∧ _get_template (some "") (some "") d = d ∧ _get_template none (some "") d = d)
    ∧ (∀ (t : Target) (c : Configuration) (p : String),
        t.configuration = some c → c.kconfigFilenameTemplate = some p → p ≠ "" →
        ∀ perm, get_kconfig_filename t perm = format_filename p t perm)
    ∧ get_kconfig_filename mcu1Target [] = some "mcu1_acme.kconfig"
    ∧ get_firmware_filename mcu1Target [] = some "mcu1_acme.bin" := by
  have hp : ∀ (p : String), p ≠ "" → p.isEmpty = false := by
    intro p h
    rw [Bool.eq_false_iff]
    exact fun hc => h ((String.isEmpty_iff p).mp hc)
  have hempty : ("" : String).isEmpty = true := rfl
  refine ⟨?_, ?_, ?_, ?_, ?_, ?_⟩
  · intro f d p h
    simp [_get_template, hp p h]
  · intro d q h
    constructor <;> simp [_get_template, hp q h, hempty]
  · intro d
    refine ⟨rfl, ?_, ?_, ?_⟩ <;> simp [_get_template, hempty]
  · intro t c p hc hk h perm
    simp [get_kconfig_filename, hc, hk, _get_template, hp p h]
  · decide
  · decide

/-- Witness for C2: the fallback tiers evaluated at concrete non-empty and
empty candidate strings, and the primary-over-legacy selection on a concrete
target carrying both keys. -/
theorem C2_witness :
    _get_template (some "P.k") (some "L.k") "D.k" = "P.k"
    ∧ _get_template none (some "L.k") "D.k" = "L.k"
    ∧ _get_template none none "D.k" = "D.k"
    ∧ get_kconfig_filename
        { targetId := "mcu1", vendorId := "acme",
          configuration := some { kconfigFilenameTemplate := some "a.kconfig",
                                  kconfigTemplate := some "b.kconfig" } } []
      = format_filename "a.kconfig"
        { targetId := "mcu1", vendorId := "acme",
          configuration := some { kconfigFilenameTemplate := some "a.kconfig",
                                  kconfigTemplate := some "b.kconfig" } } [] := by
  refine ⟨C2_template_fallback.1 (some "L.k") "D.k" "P.k" (by decide),
    (C2_template_fallback.2.1 "D.k" "L.k" (by decide)).1,
    (C2_template_fallback.2.2.1 "D.k").1, ?_⟩
  exact C2_template_fallback.2.2.2.1 _ _ "a.kconfig" rfl rfl (by decide) []

theorem pyFormatGo_missing_field (params : List (String × String)) (name : String)
    (hname : params.lookup name = none) :
    ∀ (chars : List Char) (st : FmtSt), name ∈ fieldNamesGo st chars →
      pyFormatGo params st chars = none := by
  intro chars
  induction chars with
  | nil => intro st hmem; cases st <;> simp [fieldNamesGo] at hmem
  | cons c rest ih =>
    intro st hmem
    cases st with
    | outside =>
      by_cases h1 : c = lbrace
      · simp only [fieldNamesGo, if_pos h1] at hmem
        simp [pyFormatGo, if_pos h1, ih _ hmem]
      · by_cases h2 : c = rbrace
        · simp only [fieldNamesGo, if_neg h1, if_pos h2] at hmem
          simp [pyFormatGo, if_neg h1, if_pos h2, ih _ hmem]
        · simp only [fieldNamesGo, if_neg h1, if_neg h2] at hmem
          simp [pyFormatGo, if_neg h1, if_neg h2, ih _ hmem]
    | afterLbrace =>
      by_cases h1 : c = lbrace
      · simp only [fieldNamesGo, if_pos h1] at hmem
        simp [pyFormatGo, if_pos h1, ih _ hmem]
      · by_cases h2 : c = rbrace
        · simp [fieldNamesGo, if_neg h1, if_pos h2] at hmem
        · simp only [fieldNamesGo, if_neg h1, if_neg h2] at hmem
          simp [pyFormatGo, if_neg h1, if_neg h2, ih _ hmem]
    | inField acc =>
      by_cases h1 : c = rbrace
      · simp only [fieldNamesGo, if_pos h1, List.mem_cons] at hmem
        rcases hmem with hmem | hmem
        · subst hmem
          simp [pyFormatGo, if_pos h1, hname]
        · cases hl : params.lookup acc.reverse.asString with
          | none => simp [pyFormatGo, if_pos h1, hl]
          | some v => simp [pyFormatGo, if_pos h1, hl, ih _ hmem]
      · by_cases h2 : c = lbrace
        · simp [fieldNamesGo, if_neg h1, if_pos h2] at hmem
        · simp only [fieldNamesGo, if_neg h1, if_neg h2] at hmem
          simp [pyFormatGo, if_neg h1, if_neg h2, ih _ hmem]
    | afterRbrace =>
      by_cases h1 : c = rbrace
      · simp only [fieldNamesGo, if_pos h1] at hmem
        simp [pyFormatGo, if_pos h1, ih _ hmem]
      · simp [fieldNamesGo, if_neg h1] at hmem

/-- C3: if the selected template references a `{name}` field that is absent
from the merged parameter mapping (targetId/vendorId overlaid with the
permutation, permutation winning on collision), filename resolution is a
hard error (`none`) for that (target, permutation) pair — never a partially
substituted or silently-empty filename. -/
theorem C3_missing_placeholder_errors (template : String) (target : Target)
    (permutation : List (String × String)) (name : String)
    (hfield : name ∈ fieldNames template)
    (hmissing : (mergedParams target permutation).lookup name = none) :
    format_filename template target permutation = none := by
  unfold format_filename
  rw [pyFormatGo_missing_field _ name hmissing template.toList .outside hfield]
  rfl

/-- Witness for C3: the template `"{boardRev}.bin"` against a target whose
permutation does not bind `boardRev` resolves to a hard error. -/
theorem C3_witness :
    "boardRev" ∈ fieldNames "{boardRev}.bin"
    ∧ (mergedParams mcu1Target [("variant", "usb")]).lookup "boardRev" = none
    ∧ format_filename "{boardRev}.bin" mcu1Target [("variant", "usb")] = none := by
  refine ⟨by decide, by decide, ?_⟩
  exact C3_missing_placeholder_errors "{boardRev}.bin" mcu1Target [("variant", "usb")]
    "boardRev" (by decide) (by decide)

/-- Witness for C1 at concrete inputs: a target with no axes expands to the
single empty mapping, and every expanded mapping of the example target keys
exactly its two axes. -/
theorem C1_witness :
    generate_permutations { targetId := "t", vendorId := "v" } = [[]]
    ∧ [("A", "2"), ("B", "y")].map Prod.fst
        = ((exampleTargetAB.configuration.getD {}).permutations).map Prod.fst := by
  refine ⟨C1_permutation_expansion.1 _ rfl, ?_⟩
  exact C1_permutation_expansion.2.2.1 exampleTargetAB [("A", "2"), ("B", "y")]
    (by rw [C1_permutation_expansion.2.2.2]; simp)

/-- Embeds `KalicoBuilder._create_build_entry`: the current UTC timestamp is passed
in as `now`. -/
def _create_build_entry (version : String) (commit_url : String := "")
    (now : String := "") : BuildEntry :=
  { version := version, buildDate := now, githubCommitUrl := commit_url }

/-- The find-replace-or-append loop of `update_build_in_index`: the first
entry with the same version is replaced (then `break`), otherwise (`else` of
the `for`) the new entry is appended. -/
def upsertBuildList : List BuildEntry → BuildEntry → List BuildEntry
  | [], e => [e]
  | b :: rest, e =>
    if b.version = e.version then e :: rest else b :: upsertBuildList rest e

/-- Embeds `builds.sort(key=lambda x: x.get("version", ""), reverse=True)`:
a stable sort, descending by version string. -/
def sortBuildsDesc (builds : List BuildEntry) : List BuildEntry :=
  builds.mergeSort fun a b => decide (b.version ≤ a.version)

/-- Embeds `KalicoBuilder.update_build_in_index`, acting on the loaded catalog. -/
def update_build_in_index (index : Catalog) (version : String)
    (commit_url : String := "") (now : String := "") : Catalog :=
  let build_entry := _create_build_entry version commit_url now
  let builds := upsertBuildList index.builds build_entry
  { index with builds := sortBuildsDesc builds }

theorem countP_upsertBuildList (bs : List BuildEntry) (e : BuildEntry) :
    (upsertBuildList bs e).countP (fun b => b.version == e.version)
      = if bs.countP (fun b => b.version == e.version) = 0 then 1
        else bs.countP (fun b => b.version == e.version) := by
  induction bs with
  | nil => simp [upsertBuildList]
  | cons hd rest ih =>
    by_cases h : hd.version = e.version
    · simp [upsertBuildList, h, List.countP_cons]
    · simp only [upsertBuildList, if_neg h, List.countP_cons, h, beq_iff_eq,
        if_false, Nat.add_zero]
      rw [ih]

theorem eq_of_mem_upsertBuildList {bs : List BuildEntry} {e b : BuildEntry}
    (hcount : bs.countP (fun x => x.version == e.version) ≤ 1)
    (hb : b ∈ upsertBuildList bs e) (hv : b.version = e.version) : b = e := by
  induction bs with
  | nil => simpa [upsertBuildList] using hb
  | cons hd rest ih =>
    by_cases h : hd.version = e.version
    · rw [upsertBuildList, if_pos h] at hb
      rcases List.mem_cons.mp hb with rfl | hb
      · rfl
      · exfalso
        have hz : rest.countP (fun x => x.version == e.version) = 0 := by
          have := hcount
          simp only [List.countP_cons, h, beq_iff_eq, if_true] at this
          omega
        exact absurd hv (by simpa using List.countP_eq_zero.mp hz b hb)
    · rw [upsertBuildList, if_neg h] at hb
      rcases List.mem_cons.mp hb with rfl | hb
      · exact absurd hv h
      · refine ih ?_ hb
        have := hcount
        simp only [List.countP_cons, h, beq_iff_eq, if_false] at this
        omega

theorem sortBuildsDesc_perm (bs : List BuildEntry) : List.Perm (sortBuildsDesc bs) bs :=
  List.mergeSort_perm bs _

theorem sortBuildsDesc_sorted (bs : List BuildEntry) :
    (sortBuildsDesc bs).Pairwise fun a b => b.version ≤ a.version := by
  have h := @List.sorted_mergeSort BuildEntry
    (fun a b => decide (b.version ≤ a.version))
    (fun a b c hab hbc => by
      simp only [decide_eq_true_eq] at *
      exact le_trans hbc hab)
    (fun a b => by
      simp only [Bool.or_eq_true, decide_eq_true_eq]
      exact le_total b.version a.version)
    bs
  exact h.imp fun hab => of_decide_eq_true hab

theorem version_mem_upsertBuildList {bs : List BuildEntry} {e : BuildEntry}
    {x : String} (hx : x ∈ (upsertBuildList bs e).map BuildEntry.version) :
    x = e.version ∨ x ∈ bs.map BuildEntry.version := by
  induction bs with
  | nil => simpa [upsertBuildList] using hx
  | cons hd rest ih =>
    by_cases h : hd.version = e.version
    · rw [upsertBuildList, if_pos h] at hx
      simp only [List.map_cons, List.mem_cons] at hx ⊢
      tauto
    · rw [upsertBuildList, if_neg h] at hx
      simp only [List.map_cons, List.mem_cons] at hx ⊢
      tauto

theorem nodup_versions_upsertBuildList {bs : List BuildEntry} {e : BuildEntry}
    (h : (bs.map BuildEntry.version).Nodup) :
    ((upsertBuildList bs e).map BuildEntry.version).Nodup := by
  induction bs with
  | nil => simp [upsertBuildList]
  | cons hd rest ih =>
    simp only [List.map_cons, List.nodup_cons] at h
    by_cases hv : hd.version = e.version
    · rw [upsertBuildList, if_pos hv]
      simp only [List.map_cons, List.nodup_cons]
      exact ⟨hv ▸ h.1, h.2⟩
    · rw [upsertBuildList, if_neg hv]
      simp only [List.map_cons, List.nodup_cons]
      refine ⟨fun hc => ?_, ih h.2⟩
      rcases version_mem_upsertBuildList hc with hc | hc
      · exact hv hc
      · exact h.1 hc

/-- C4: on a catalog holding at most one `builds` entry per version,
`update_build_in_index` leaves exactly one entry for the upserted version
(every entry of that version is the freshly created one); with no prior
entry the new entry is appended; and upserting the same version twice leaves
exactly one entry carrying the commit reference and timestamp of the second call. -/
theorem C4_upsert_unique_version (idx : Catalog) (v c1 now1 c2 now2 : String)
    (hcount : idx.builds.countP (fun b => b.version == v) ≤ 1) :
    ((update_build_in_index idx v c1 now1).builds.countP
        (fun b => b.version == v) = 1)
    ∧ (∀ b ∈ (update_build_in_index idx v c1 now1).builds,
        b.version = v → b = _create_build_entry v c1 now1)
    ∧ (idx.builds.countP (fun b => b.version == v) = 0 →
        upsertBuildList idx.builds (_create_build_entry v c1 now1)
          = idx.builds ++ [_create_build_entry v c1 now1])
    ∧ ((update_build_in_index (update_build_in_index idx v c1 now1) v c2 now2).builds.countP
        (fun b => b.version == v) = 1)
    ∧ (∀ b ∈ (update_build_in_index (update_build_in_index idx v c1 now1) v c2 now2).builds,
        b.version = v → b = _create_build_entry v c2 now2) := by
  have key : ∀ (cat : Catalog) (c now : String),
      cat.builds.countP (fun b => b.version == v) ≤ 1 →
      ((update_build_in_index cat v c now).builds.countP (fun b => b.version == v) = 1)
      ∧ (∀ b ∈ (update_build_in_index cat v c now).builds,
          b.version = v → b = _create_build_entry v c now) := by
    intro cat c now hc
    have hv : (_create_build_entry v c now).version = v := rfl
    constructor
    · rw [update_build_in_index]
      rw [(sortBuildsDesc_perm _).countP_eq]
      have := countP_upsertBuildList cat.builds (_create_build_entry v c now)
      rw [hv] at this
      rw [this]
      split <;> omega
    · intro b hb hbv
      rw [update_build_in_index] at hb
      rw [(sortBuildsDesc_perm _).mem_iff] at hb
      exact eq_of_mem_upsertBuildList (by rw [hv]; exact hc) hb (by rw [hv]; exact hbv)
  obtain ⟨h1, h2⟩ := key idx c1 now1 hcount
  have happend : idx.builds.countP (fun b => b.version == v) = 0 →
      upsertBuildList idx.builds (_create_build_entry v c1 now1)
        = idx.builds ++ [_create_build_entry v c1 now1] := by
    intro hz
    have : ∀ bs : List BuildEntry, bs.countP (fun b => b.version == v) = 0 →
        upsertBuildList bs (_create_build_entry v c1 now1)
          = bs ++ [_create_build_entry v c1 now1] := by
      intro bs
      induction bs with
      | nil => intro _; rfl
      | cons hd rest ih =>
        intro hz
        simp only [List.countP_cons, beq_iff_eq] at hz
        have hne : hd.version ≠ v := by
          intro hc
          simp [hc] at hz
        rw [upsertBuildList, if_neg (by exact hne), List.cons_append,
          ih (by omega)]
    exact this idx.builds hz
  obtain ⟨h3, h4⟩ := key (update_build_in_index idx v c1 now1) c2 now2 (le_of_eq h1)
  exact ⟨h1, h2, happend, h3, h4⟩

/-- Witness for C4: a catalog with a single `v1` entry, upserted twice for
`v1`, holds exactly one `v1` entry and it is the entry of the second call. -/
theorem C4_witness :
    ((update_build_in_index
        (update_build_in_index { builds := [_create_build_entry "v1" "c0" "t0"] }
          "v1" "c1" "t1") "v1" "c2" "t2").builds.countP
      (fun b => b.version == "v1") = 1) := by
  exact (C4_upsert_unique_version { builds := [_create_build_entry "v1" "c0" "t0"] }
    "v1" "c1" "t1" "c2" "t2" (by decide)).2.2.2.1

/-- The dict comprehension `{b.get("version"): b for b in existing_builds}`
followed by `.get(name)`: for a duplicated version the later entry wins,
hence the lookup searches the reversed list. -/
def lookupBuildByVersion (bs : List BuildEntry) (v : String) : Option BuildEntry :=
  bs.reverse.find? fun b => b.version == v

/-- The `builds` list of the existing `index.json`, or `[]` when the file
does not exist (`if self.index_file.exists() else []`). -/
def existingBuildsOf : Option Catalog → List BuildEntry
  | some idx => idx.builds
  | none => []

/-- Embeds `KalicoBuilder.rebuild_index`: aborts (`sys.exit(1)`, modelled `none`,
nothing written) when the `builds/` root does not exist; otherwise starts
from the template document, keeps the existing entry for every subdirectory
name that has one, synthesizes a fresh entry (current timestamp, empty
commit reference) for the rest, and sorts descending by version.  `dirs` is
the list of subdirectory names of `builds/` in iteration order. -/
def rebuild_index (buildsDirExists : Bool) (template : Catalog)
    (existing : Option Catalog) (dirs : List String) (now : String) : Option Catalog :=
  if buildsDirExists then
    let existing_builds := existingBuildsOf existing
    let versions := dirs.map fun name =>
      (lookupBuildByVersion existing_builds name).getD (_create_build_entry name "" now)
    some { template with builds := sortBuildsDesc versions }
  else
    none

theorem lookupBuildByVersion_version {bs : List BuildEntry} {v : String}
    {b : BuildEntry} (h : lookupBuildByVersion bs v = some b) : b.version = v := by
  have := List.find?_some h
  simpa using this

theorem rebuild_entry_version (bs : List BuildEntry) (name now : String) :
    ((lookupBuildByVersion bs name).getD (_create_build_entry name "" now)).version
      = name := by
  cases h : lookupBuildByVersion bs name with
  | none => rfl
  | some b => simpa using lookupBuildByVersion_version h

/-- The builds list is strictly descending by version string. -/
def strictDescBuilds (bs : List BuildEntry) : Prop :=
  bs.Pairwise fun a b => b.version < a.version

theorem strictDesc_of_sorted_nodup {bs : List BuildEntry}
    (hs : bs.Pairwise fun a b => b.version ≤ a.version)
    (hn : (bs.map BuildEntry.version).Nodup) : strictDescBuilds bs := by
  have hne : bs.Pairwise fun a b => a.version ≠ b.version := List.pairwise_map.mp hn
  exact (hs.and hne).imp fun h => lt_of_le_of_ne h.1 (Ne.symm h.2)

theorem nodup_versions_of_strictDesc {bs : List BuildEntry}
    (h : strictDescBuilds bs) : (bs.map BuildEntry.version).Nodup :=
  List.pairwise_map.mpr (h.imp fun hab => ne_of_gt hab)

theorem nodup_versions_perm {bs cs : List BuildEntry} (hp : List.Perm bs cs)
    (h : (cs.map BuildEntry.version).Nodup) : (bs.map BuildEntry.version).Nodup :=
  ((hp.map BuildEntry.version).nodup_iff).mpr h

/-- C5: sortedness strictly descending by version string is an invariant of
both catalog-writing operations — `update_build_in_index` preserves it, and
`rebuild_index` establishes it whenever the scanned subdirectory names are
distinct (they are: they are names within one directory). -/
theorem C5_sorted_invariant (idx : Catalog) (v c now : String) (template : Catalog)
    (existing : Option Catalog) (dirs : List String) (now2 : String) :
    (strictDescBuilds idx.builds →
      strictDescBuilds (update_build_in_index idx v c now).builds)
    ∧ (dirs.Nodup → ∀ out, rebuild_index true template existing dirs now2 = some out →
      strictDescBuilds out.builds) := by
  constructor
  · intro h
    refine strictDesc_of_sorted_nodup (sortBuildsDesc_sorted _) ?_
    refine nodup_versions_perm (sortBuildsDesc_perm _) ?_
    exact nodup_versions_upsertBuildList (nodup_versions_of_strictDesc h)
  · intro hdirs out hout
    rw [rebuild_index, if_pos rfl] at hout
    have h := Option.some.inj hout
    subst h
    refine strictDesc_of_sorted_nodup (sortBuildsDesc_sorted _) ?_
    refine nodup_versions_perm (sortBuildsDesc_perm _) ?_
    have hmap : (dirs.map fun name =>
        (lookupBuildByVersion (existingBuildsOf existing) name).getD
          (_create_build_entry name "" now2)).map BuildEntry.version = dirs := by
      rw [List.map_map]
      have hid : (BuildEntry.version ∘ fun name =>
          (lookupBuildByVersion (existingBuildsOf existing) name).getD
            (_create_build_entry name "" now2)) = id :=
        funext fun name => rebuild_entry_version (existingBuildsOf existing) name now2
      rw [hid, List.map_id]
    rw [hmap]
    exact hdirs

/-- Witness for C5 at concrete inputs: a strictly descending two-entry
catalog stays strictly descending after upserting a third version, and a
rebuild over two distinct directory names yields a strictly descending
builds list. -/
theorem C5_witness :
    strictDescBuilds (update_build_in_index
      { builds := [_create_build_entry "v3" "" "t3", _create_build_entry "v1" "" "t1"] }
      "v2" "c" "t2").builds
    ∧ ∀ out, rebuild_index true {} (some {}) ["va", "vb"] "t" = some out →
        strictDescBuilds out.builds := by
  constructor
  · refine (C5_sorted_invariant
      { builds := [_create_build_entry "v3" "" "t3", _create_build_entry "v1" "" "t1"] }
      "v2" "c" "t2" {} none [] "t").1 ?_
    refine List.Pairwise.cons ?_ (List.Pairwise.cons (by simp) List.Pairwise.nil)
    intro b hb
    simp only [List.mem_singleton] at hb
    subst hb
    rw [String.lt_iff_toList_lt]
    decide
  · exact (C5_sorted_invariant {} "v" "c" "t" {} (some {}) ["va", "vb"] "t").2
      (by decide)

/-- C6: `rebuild_index` aborts without writing when the build output root is
missing; otherwise its builds list is exactly (a descending-sorted
permutation of) one entry per scanned subdirectory name — the existing
catalog entry, unchanged with its original timestamp and commit reference,
when one exists for that version, and a fresh entry with the current
timestamp and empty commit reference when none does. -/
theorem C6_rebuild_semantics (template : Catalog) (existing : Option Catalog)
    (dirs : List String) (now : String) :
    rebuild_index false template existing dirs now = none
    ∧ ∀ out, rebuild_index true template existing dirs now = some out →
        List.Perm out.builds (dirs.map fun name =>
          (lookupBuildByVersion (existingBuildsOf existing) name).getD
            (_create_build_entry name "" now))
        ∧ (∀ v e, v ∈ dirs →
            lookupBuildByVersion (existingBuildsOf existing) v = some e →
            e ∈ out.builds)
        ∧ (∀ v, v ∈ dirs →
            lookupBuildByVersion (existingBuildsOf existing) v = none →
            _create_build_entry v "" now ∈ out.builds)
        ∧ out.builds.Pairwise (fun a b => b.version ≤ a.version) := by
  refine ⟨rfl, ?_⟩
  intro out hout
  rw [rebuild_index, if_pos rfl] at hout
  have h := Option.some.inj hout
  subst h
  have hperm := sortBuildsDesc_perm (dirs.map fun name =>
    (lookupBuildByVersion (existingBuildsOf existing) name).getD
      (_create_build_entry name "" now))
  refine ⟨hperm, ?_, ?_, sortBuildsDesc_sorted _⟩
  · intro v e hv hlook
    rw [hperm.mem_iff]
    refine List.mem_map.mpr ⟨v, hv, ?_⟩
    rw [hlook]
    rfl
  · intro v hv hlook
    rw [hperm.mem_iff]
    refine List.mem_map.mpr ⟨v, hv, ?_⟩
    rw [hlook]
    rfl

/-- An existing catalog with one recorded build for version `v1`. -/
def oldCat : Catalog :=
  { builds := [{ version := "v1", buildDate := "T0", githubCommitUrl := "C0" }] }

/-- The catalog produced by rebuilding over directories `v1`, `v2` against
`oldCat`. -/
def rebuiltOut : Catalog :=
  { builds := sortBuildsDesc
      [{ version := "v1", buildDate := "T0", githubCommitUrl := "C0" },
       _create_build_entry "v2" "" "T"] }

/-- Witness for C6: rebuilding over directories `v1` (already catalogued)
and `v2` (new) keeps the original `v1` entry — timestamp `T0`, commit `C0` —
and synthesizes `⟨v2, T, empty⟩`. -/
theorem C6_witness :
    ({ version := "v1", buildDate := "T0", githubCommitUrl := "C0" } : BuildEntry)
        ∈ rebuiltOut.builds
    ∧ _create_build_entry "v2" "" "T" ∈ rebuiltOut.builds := by
  have h := (C6_rebuild_semantics {} (some oldCat) ["v1", "v2"] "T").2 rebuiltOut rfl
  exact ⟨h.2.1 "v1" _ (by decide) rfl, h.2.2.1 "v2" (by decide) rfl⟩

/-- C10: `rebuild_index` takes the `targets` and `configurations` of the
catalog it writes from the template document, discarding whatever the
existing catalog held for them; only the `builds` of the existing catalog
entries influence the result. -/
theorem C10_rebuild_uses_template (template ex : Catalog) (dirs : List String)
    (now : String) :
    (∀ out, rebuild_index true template (some ex) dirs now = some out →
        out.targets = template.targets ∧ out.configurations = template.configurations)
    ∧ (∀ ex2 : Catalog, ex2.builds = ex.builds →
        rebuild_index true template (some ex2) dirs now
          = rebuild_index true template (some ex) dirs now) := by
  constructor
  · intro out hout
    rw [rebuild_index, if_pos rfl] at hout
    have h := Option.some.inj hout
    subst h
    exact ⟨rfl, rfl⟩
  · intro ex2 h2
    rw [rebuild_index, rebuild_index]
    simp only [existingBuildsOf, h2]

/-- A template catalog with one target and no builds. -/
def tmplCat : Catalog := { targets := [mcu1Target] }

/-- An existing catalog with different targets but the same builds as
`oldCat`. -/
def oldCatEdited : Catalog := { targets := [exampleTargetAB], builds := oldCat.builds }

/-- The result of rebuilding `tmplCat` against `oldCat` over directory `v1`. -/
def tmplRebuilt : Catalog :=
  { tmplCat with
    builds := sortBuildsDesc [{ version := "v1", buildDate := "T0", githubCommitUrl := "C0" }] }

/-- Witness for C10: a rebuild against `tmplCat` reproduces the targets
and configurations of `tmplCat`, and an existing catalog differing only in
targets/configurations rebuilds to the identical result. -/
theorem C10_witness :
    (rebuild_index true tmplCat (some oldCatEdited) ["v1"] "T"
      = rebuild_index true tmplCat (some oldCat) ["v1"] "T")
    ∧ tmplRebuilt.targets = tmplCat.targets := by
  refine ⟨(C10_rebuild_uses_template tmplCat oldCat ["v1"] "T").2 oldCatEdited rfl, ?_⟩
  exact ((C10_rebuild_uses_template tmplCat oldCat ["v1"] "T").1 tmplRebuilt rfl).1

/-- The set comprehension over `configurations`: every documented
permutation-value id. -/
def defined_ids (index : Catalog) : Finset String :=
  (index.configurations.flatMap fun config =>
    config.permutations.map ConfigPerm.id).toFinset

/-- The set comprehension over `targets`: every permutation value referenced
by the `configuration.permutations` of any target. -/
def used_values (index : Catalog) : Finset String :=
  (index.targets.flatMap fun target =>
    ((target.configuration.getD {}).permutations).flatMap Prod.snd).toFinset

/-- Embeds `KalicoBuilder.check_configurations`: returns the missing-documentation
set `used_values - defined_ids` and whether the command exits with failure
status (`sys.exit(1)` iff the set is non-empty).  The source only reads the
catalog here; nothing is written back, which the return type reflects. -/
def check_configurations (index : Catalog) : Finset String × Bool :=
  let missing_ids := used_values index \ defined_ids index
  (missing_ids, decide (missing_ids ≠ ∅))

/-- A target using permutation values `v1` and `v2`. -/
def exampleUserTarget : Target :=
  { targetId := "t", vendorId := "v",
    configuration := some { permutations := [("opt", ["v1", "v2"])] } }

/-- A catalog whose one target uses values `v1`, `v2` while only `v1`
is documented. -/
def exampleMissingIdx : Catalog :=
  { targets := [exampleUserTarget],
    configurations := [{ permutations := [{ id := "v1" }] }] }

/-- C7: `check_configurations` reports exactly the set difference
(values referenced by the axes of any target) minus (documented values); it exits
with failure iff that set is non-empty; a fully documented catalog yields the
empty missing-set and success; and the concrete catalog using an
undocumented `v2` yields exactly `{v2}`. -/
theorem C7_check_configurations :
    (∀ (index : Catalog) (v : String),
      v ∈ (check_configurations index).1 ↔
        ((∃ t ∈ index.targets,
            ∃ ax ∈ (t.configuration.getD {}).permutations, v ∈ ax.2)
          ∧ ¬ ∃ c ∈ index.configurations, ∃ p ∈ c.permutations, p.id = v))
    ∧ (∀ index : Catalog,
        (check_configurations index).2 = true ↔ (check_configurations index).1 ≠ ∅)
    ∧ (∀ index : Catalog, (∀ v ∈ used_values index, v ∈ defined_ids index) →
        (check_configurations index).1 = ∅ ∧ (check_configurations index).2 = false)
    ∧ (check_configurations exampleMissingIdx).1 = {"v2"}
    ∧ (check_configurations exampleMissingIdx).2 = true := by
  have hmem : ∀ (index : Catalog) (v : String),
      v ∈ (check_configurations index).1 ↔
        ((∃ t ∈ index.targets,
            ∃ ax ∈ (t.configuration.getD {}).permutations, v ∈ ax.2)
          ∧ ¬ ∃ c ∈ index.configurations, ∃ p ∈ c.permutations, p.id = v) := by
    intro index v
    simp [check_configurations, used_values, defined_ids, List.mem_flatMap]
  have hstatus : ∀ index : Catalog,
      (check_configurations index).2 = true ↔ (check_configurations index).1 ≠ ∅ := by
    intro index
    simp [check_configurations]
  have hex : (check_configurations exampleMissingIdx).1 = {"v2"} := by
    apply Finset.ext
    intro v
    rw [hmem]
    simp only [exampleMissingIdx, exampleUserTarget, List.mem_singleton,
      List.mem_cons, List.not_mem_nil, or_false, Finset.mem_singleton]
    constructor
    · rintro ⟨⟨t, rfl, ax, hax, hv⟩, hnot⟩
      simp only [Option.getD_some] at hax hv
      simp only [List.mem_singleton] at hax
      subst hax
      simp only [List.mem_cons, List.mem_singleton, List.not_mem_nil, or_false] at hv
      rcases hv with rfl | rfl
      · exact absurd ⟨_, rfl, ⟨"v1"⟩, by simp⟩ hnot
      · rfl
    · rintro rfl
      refine ⟨⟨exampleUserTarget, rfl, ("opt", ["v1", "v2"]), by simp [exampleUserTarget], by simp⟩, ?_⟩
      rintro ⟨c, rfl, p, hp, hid⟩
      simp only [List.mem_singleton] at hp
      subst hp
      exact absurd hid (by decide)
  refine ⟨hmem, hstatus, ?_, hex, ?_⟩
  · intro index h
    have he : used_values index \ defined_ids index = ∅ :=
      Finset.sdiff_eq_empty_iff_subset.mpr fun v hv => h v hv
    constructor
    · simpa [check_configurations] using he
    · simp [check_configurations, he]
  · rw [hstatus, hex]
    exact Finset.singleton_ne_empty _

/-- A target using only the documented value `v1`. -/
def exampleCompleteTarget : Target :=
  { targetId := "t", vendorId := "v",
    configuration := some { permutations := [("opt", ["v1"])] } }

/-- A catalog documenting every value its targets use. -/
def exampleCompleteIdx : Catalog :=
  { targets := [exampleCompleteTarget],
    configurations := [{ permutations := [{ id := "v1" }] }] }

/-- Witness for C7: a catalog documenting every value it uses reports an
empty missing-set and a success exit status. -/
theorem C7_witness :
    (check_configurations exampleCompleteIdx).1 = ∅
    ∧ (check_configurations exampleCompleteIdx).2 = false := by
  exact C7_check_configurations.2.2.1 exampleCompleteIdx (by decide)

/-- The side-effecting operations a build run can perform, in program
order: creating the version output directory, the per-compile filesystem
and subprocess work of `compile_kalico`, writing `metadata.json`, and
saving `index.json` via `update_build_in_index`. -/
inductive Effect
  | mkdirVersionDir (version : String)
  | copyKconfig (kconfigFile : String)
  | makeClean
  | makeBuild
  | copyFirmware (firmwareFile : String)
  | writeMetadata (version : String)
  | saveIndex
deriving DecidableEq

/-- The outside world a build run consults: whether the Kalico source
directory exists, which kconfig files exist under `kconfigs/`, and whether
compiling a given kconfig succeeds (`make` exits zero and one of the known
output names `klipper.bin`/`klipper.elf` exists — failure and
missing-output both yield `False` in the source). -/
structure BuildEnv where
  kalicoExists : Bool
  kconfigExists : String → Bool
  compileSucceeds : String → Bool

/-- Embeds `KalicoBuilder.compile_kalico`: in dry-run it only prints and returns
`True` with no side effects; otherwise it copies the kconfig into place,
runs `make clean` and `make`, and copies the firmware artifact out on
success. -/
def compile_kalico (env : BuildEnv) (kconfigFile firmwareFile : String)
    (dry_run : Bool) : Bool × List Effect :=
  if dry_run then
    (true, [])
  else
    (env.compileSucceeds kconfigFile,
     [Effect.copyKconfig kconfigFile, Effect.makeClean, Effect.makeBuild]
       ++ if env.compileSucceeds kconfigFile then [Effect.copyFirmware firmwareFile] else [])

/-- The inner permutation loop of `KalicoBuilder.build` for one target:
every permutation counts toward the total; a missing kconfig file is a
skip (`continue`); otherwise the compiler runs and successes are counted.
A filename whose template resolution raises propagates as `none`
(uncaught exception aborting the process). -/
def buildTargetPerms (env : BuildEnv) (target : Target) (dry_run : Bool) :
    List (List (String × String)) → Option (Nat × Nat × List Effect)
  | [] => some (0, 0, [])
  | permutation :: rest =>
    match get_kconfig_filename target permutation with
    | none => none
    | some kconfig_filename =>
      match get_firmware_filename target permutation with
      | none => none
      | some firmware_filename =>
        match buildTargetPerms env target dry_run rest with
        | none => none
        | some (total, successful, effects) =>
          if env.kconfigExists kconfig_filename then
            let result := compile_kalico env kconfig_filename firmware_filename dry_run
            some (total + 1, successful + (if result.1 then 1 else 0),
              result.2 ++ effects)
          else
            some (total + 1, successful, effects)

/-- The outer target loop of `KalicoBuilder.build`. -/
def buildTargets (env : BuildEnv) (dry_run : Bool) :
    List Target → Option (Nat × Nat × List Effect)
  | [] => some (0, 0, [])
  | target :: rest =>
    match buildTargetPerms env target dry_run (generate_permutations target) with
    | none => none
    | some (t1, s1, e1) =>
      match buildTargets env dry_run rest with
      | none => none
      | some (t2, s2, e2) => some (t1 + t2, s1 + s2, e1 ++ e2)

/-- Embeds `KalicoBuilder.build` on the loaded catalog: exits (`none`) when the
Kalico directory is missing in a non-dry run; creates the version output
directory and writes `metadata.json` unconditionally — in dry runs too;
updates `index.json` (with a save) only in a real run.  Returns
`(total, successful, effects, resulting catalog)`. -/
def build (index : Catalog) (env : BuildEnv) (version : String)
    (commit_url now : String) (dry_run : Bool) :
    Option (Nat × Nat × List Effect × Catalog) :=
  if !dry_run && !env.kalicoExists then
    none
  else
    match buildTargets env dry_run index.targets with
    | none => none
    | some (total, successful, effects) =>
      let effects := Effect.mkdirVersionDir version :: effects
        ++ [Effect.writeMetadata version]
      if dry_run then
        some (total, successful, effects, index)
      else
        some (total, successful, effects ++ [Effect.saveIndex],
          update_build_in_index index version commit_url now)

/-- The process exit status of the `build` command: `main` sets no status
itself, so the process exits 0 unless `build` aborted via `sys.exit(1)` or
an uncaught exception (both `none` here). -/
def build_exit_code (index : Catalog) (env : BuildEnv)
    (version commit_url now : String) (dry_run : Bool) : Nat :=
  match build index env version commit_url now dry_run with
  | none => 1
  | some _ => 0

/-- A catalog with the single axis-free target `mcu1`/`acme`. -/
def cexIdx : Catalog := { targets := [mcu1Target] }

/-- An environment where every kconfig exists and every compile fails. -/
def cexEnvFail : BuildEnv :=
  { kalicoExists := true, kconfigExists := fun _ => true,
    compileSucceeds := fun _ => false }

/-- An environment where every kconfig exists and every compile succeeds. -/
def cexEnvOk : BuildEnv :=
  { kalicoExists := true, kconfigExists := fun _ => true,
    compileSucceeds := fun _ => true }

/-- An environment whose Kalico source directory is missing. -/
def cexEnvNoKalico : BuildEnv :=
  { kalicoExists := false, kconfigExists := fun _ => true,
    compileSucceeds := fun _ => true }

/-- Counterexample to C8: a non-dry-run build in which the only compiler
invocation fails (1 attempted, 0 successful) still exits with status 0 —
`build` records the failure only in the printed counts. -/
theorem C8_counterexample :
    (compile_kalico cexEnvFail "mcu1_acme.kconfig" "mcu1_acme.bin" false).1 = false
    ∧ (build cexIdx cexEnvFail "v1" "" "T" false).map (fun r => (r.1, r.2.1))
        = some (1, 0)
    ∧ build_exit_code cexIdx cexEnvFail "v1" "" "T" false = 0 := by
  refine ⟨rfl, rfl, rfl⟩

/-- C8 as amended: a build run that completes always exits with status 0,
no matter how many compiler invocations failed; the only non-zero exits of
the build command are the missing-Kalico-directory abort (non-dry runs)
and an uncaught template-resolution exception. -/
theorem C8_amended_exit_semantics :
    (∀ (index : Catalog) (env : BuildEnv) (version commit_url now : String)
        (dry_run : Bool) (r : Nat × Nat × List Effect × Catalog),
      build index env version commit_url now dry_run = some r →
      build_exit_code index env version commit_url now dry_run = 0)
    ∧ (∀ (index : Catalog) (env : BuildEnv) (version commit_url now : String),
        env.kalicoExists = false →
        build index env version commit_url now false = none) := by
  constructor
  · intro index env version commit_url now dry_run r h
    rw [build_exit_code, h]
  · intro index env version commit_url now h
    rw [build, h]
    rfl

/-- Witness for C8 (amended): the completed failing run exits 0, and a run
with no Kalico directory aborts. -/
theorem C8_witness :
    build_exit_code cexIdx cexEnvOk "v1" "" "T" false = 0
    ∧ build cexIdx cexEnvNoKalico "v1" "" "T" false = none := by
  refine ⟨C8_amended_exit_semantics.1 cexIdx cexEnvOk "v1" "" "T" false _ rfl, ?_⟩
  exact C8_amended_exit_semantics.2 cexIdx cexEnvNoKalico "v1" "" "T" rfl

/-- Counterexample to C9: a dry run is not filesystem-neutral — it still
creates the version output directory and writes the `metadata.json`
snapshot. -/
theorem C9_counterexample :
    (build cexIdx cexEnvOk "v1" "" "T" true).map (fun r => r.2.2.1)
      = some [Effect.mkdirVersionDir "v1", Effect.writeMetadata "v1"]
    ∧ (build cexIdx cexEnvOk "v1" "" "T" true).map (fun r => r.2.2.1) ≠ some [] := by
  refine ⟨rfl, ?_⟩
  intro h
  simpa using Option.some.inj (rfl.trans h :
    (some [Effect.mkdirVersionDir "v1", Effect.writeMetadata "v1"] :
      Option (List Effect)) = some [])

theorem buildTargetPerms_dry_effects {env : BuildEnv} {target : Target}
    {perms : List (List (String × String))} {r : Nat × Nat × List Effect}
    (h : buildTargetPerms env target true perms = some r) : r.2.2 = [] := by
  induction perms generalizing r with
  | nil =>
    rw [buildTargetPerms] at h
    cases Option.some.inj h
    rfl
  | cons p rest ih =>
    rw [buildTargetPerms] at h
    cases hk : get_kconfig_filename target p with
    | none => rw [hk] at h; exact absurd h (by simp)
    | some kf =>
      rw [hk] at h
      cases hf : get_firmware_filename target p with
      | none => rw [hf] at h; exact absurd h (by simp)
      | some ff =>
        rw [hf] at h
        cases hr : buildTargetPerms env target true rest with
        | none => rw [hr] at h; exact absurd h (by simp)
        | some prev =>
          obtain ⟨total, successful, effects⟩ := prev
          rw [hr] at h
          have heff : effects = [] := ih hr
          by_cases hex : env.kconfigExists kf
          · simp only [hex, if_true] at h
            cases Option.some.inj h
            simpa [compile_kalico] using heff
          · simp only [hex, if_false] at h
            cases Option.some.inj h
            exact heff

theorem buildTargets_dry_effects {env : BuildEnv} {targets : List Target}
    {r : Nat × Nat × List Effect}
    (h : buildTargets env true targets = some r) : r.2.2 = [] := by
  induction targets generalizing r with
  | nil =>
    rw [buildTargets] at h
    cases Option.some.inj h
    rfl
  | cons target rest ih =>
    rw [buildTargets] at h
    cases hp : buildTargetPerms env target true (generate_permutations target) with
    | none => rw [hp] at h; exact absurd h (by simp)
    | some r1 =>
      obtain ⟨t1, s1, e1⟩ := r1
      rw [hp] at h
      cases hr : buildTargets env true rest with
      | none => rw [hr] at h; exact absurd h (by simp)
      | some r2 =>
        obtain ⟨t2, s2, e2⟩ := r2
        rw [hr] at h
        cases Option.some.inj h
        have h1 : e1 = [] := buildTargetPerms_dry_effects hp
        have h2 : e2 = [] := ih hr
        simp [h1, h2]

theorem buildTargetPerms_total_eq (env : BuildEnv) (target : Target)
    (d1 d2 : Bool) (perms : List (List (String × String))) :
    (buildTargetPerms env target d1 perms).map (fun r => r.1)
      = (buildTargetPerms env target d2 perms).map (fun r => r.1) := by
  induction perms with
  | nil => rfl
  | cons p rest ih =>
    rw [buildTargetPerms, buildTargetPerms]
    cases get_kconfig_filename target p with
    | none => rfl
    | some kf =>
      cases get_firmware_filename target p with
      | none => rfl
      | some ff =>
        cases h1 : buildTargetPerms env target d1 rest with
        | none =>
          cases h2 : buildTargetPerms env target d2 rest with
          | none => rfl
          | some r2 => rw [h1, h2] at ih; exact absurd ih (by simp)
        | some r1 =>
          cases h2 : buildTargetPerms env target d2 rest with
          | none => rw [h1, h2] at ih; exact absurd ih (by simp)
          | some r2 =>
            obtain ⟨t1, s1, e1⟩ := r1
            obtain ⟨t2, s2, e2⟩ := r2
            rw [h1, h2] at ih
            have ht : t1 = t2 := by simpa using ih
            subst ht
            by_cases hex : env.kconfigExists kf <;> simp [hex]

theorem buildTargets_total_eq (env : BuildEnv) (d1 d2 : Bool)
    (targets : List Target) :
    (buildTargets env d1 targets).map (fun r => r.1)
      = (buildTargets env d2 targets).map (fun r => r.1) := by
  induction targets with
  | nil => rfl
  | cons target rest ih =>
    rw [buildTargets, buildTargets]
    have hp := buildTargetPerms_total_eq env target d1 d2 (generate_permutations target)
    cases h1 : buildTargetPerms env target d1 (generate_permutations target) with
    | none =>
      cases h2 : buildTargetPerms env target d2 (generate_permutations target) with
      | none => rfl
      | some r2 => rw [h1, h2] at hp; exact absurd hp (by simp)
    | some r1 =>
      cases h2 : buildTargetPerms env target d2 (generate_permutations target) with
      | none => rw [h1, h2] at hp; exact absurd hp (by simp)
      | some r2 =>
        obtain ⟨t1, s1, e1⟩ := r1
        obtain ⟨t2, s2, e2⟩ := r2
        rw [h1, h2] at hp
        have ht : t1 = t2 := by simpa using hp
        subst ht
        cases g1 : buildTargets env d1 rest with
        | none =>
          cases g2 : buildTargets env d2 rest with
          | none => rfl
          | some q2 => rw [g1, g2] at ih; exact absurd ih (by simp)
        | some q1 =>
          cases g2 : buildTargets env d2 rest with
          | none => rw [g1, g2] at ih; exact absurd ih (by simp)
          | some q2 =>
            obtain ⟨u1, v1, f1⟩ := q1
            obtain ⟨u2, v2, f2⟩ := q2
            rw [g1, g2] at ih
            have hu : u1 = u2 := by simpa using ih
            subst hu
            rfl

/-- C9 as amended: a dry run performs no file copy, no compiler
invocation, no catalog update and no upload — its only effects are
creating the version directory and writing the metadata snapshot (so the
filesystem is NOT left unchanged); the catalog is returned unmodified; and
the dry run attempts exactly as many builds as the corresponding real run,
since filename resolution is identical. -/
theorem C9_amended_dry_run (index : Catalog) (env : BuildEnv)
    (version commit_url now : String) (r : Nat × Nat × List Effect × Catalog)
    (h : build index env version commit_url now true = some r) :
    (∀ e ∈ r.2.2.1, e = Effect.mkdirVersionDir version
        ∨ e = Effect.writeMetadata version)
    ∧ r.2.2.2 = index
    ∧ (∀ r2 : Nat × Nat × List Effect × Catalog,
        build index env version commit_url now false = some r2 → r.1 = r2.1) := by
  rw [build] at h
  simp only [Bool.not_true, Bool.false_and, Bool.false_eq_true, if_false] at h
  cases hbt : buildTargets env true index.targets with
  | none => rw [hbt] at h; exact absurd h (by simp)
  | some res =>
    obtain ⟨total, successful, effects⟩ := res
    rw [hbt] at h
    simp only [if_pos rfl] at h
    cases Option.some.inj h
    have heff : effects = [] := buildTargets_dry_effects hbt
    subst heff
    refine ⟨?_, rfl, ?_⟩
    · intro e he
      simp only [List.cons_append, List.nil_append, List.mem_cons,
        List.mem_singleton, List.not_mem_nil, or_false] at he
      rcases he with rfl | rfl
      · exact Or.inl rfl
      · exact Or.inr rfl
    · intro r2 h2
      rw [build] at h2
      by_cases hk : env.kalicoExists
      · simp only [hk, Bool.not_false, Bool.not_true, Bool.and_false,
          Bool.false_eq_true, if_false] at h2
        have htot := buildTargets_total_eq env true false index.targets
        rw [hbt] at htot
        cases hbf : buildTargets env false index.targets with
        | none => rw [hbf] at h2; exact absurd h2 (by simp)
        | some res2 =>
          obtain ⟨total2, successful2, effects2⟩ := res2
          rw [hbf] at htot
          rw [hbf] at h2
          simp only [Bool.false_eq_true, if_false] at h2
          cases Option.some.inj h2
          simpa using htot
      · simp only [Bool.not_eq_true] at hk
        rw [hk] at h2
        simp at h2

/-- Witness for C9 (amended): the dry run over `cexIdx` returns the catalog
untouched. -/
theorem C9_witness :
    ((1, 1, [Effect.mkdirVersionDir "v1", Effect.writeMetadata "v1"], cexIdx) :
        Nat × Nat × List Effect × Catalog).2.2.2 = cexIdx :=
  (C9_amended_dry_run cexIdx cexEnvOk "v1" "" "T" _ rfl).2.1

end Flasher
